import Mathlib

/-!
Verification of the gorng repository: a from-scratch SHA-1 implementation
(package sha1, file hash.go), a digest-cycling PRNG built on it
(random.go, type ShaRing), a byte/bit extraction routine and a
channel-based distribution layer (package safe).

All machine integers are modelled as `Nat` with explicit reductions
`% 2^32` (uint32) and `% 2^64` (uint64) at the points where the Go
code performs wrapping arithmetic or truncating conversions.  Byte
sequences are `List Nat` with entries below 256; the 16-word block and
the 5-word chaining value are `List Nat` of 32-bit words.  Fallible
operations (Go panics: out-of-range slice indexing) return `Option`.
-/

set_option maxRecDepth 100000

namespace Gorng

/-! ## sha1/hash.go : constants and the hasher state -/

def BLOCK_BYTES : Nat := 64
def BLOCK_INTS : Nat := 16
def BLOCKITEM_MASK : Nat := 3
def DIGEST_BYTES : Nat := 20
def DIGEST_INTS : Nat := 5
def SCRATCH_INTS : Nat := 80

def U32 : Nat := 4294967296
def U64 : Nat := 18446744073709551616

/-- Internal state of the sha1 compression engine (Go struct `hasher`):
`block` is the 16-word input block, `length` the uint64 running byte
count, `chainValue` the five 32-bit words of running hash state. -/
structure HasherState where
  block : List Nat
  length : Nat
  chainValue : List Nat
deriving DecidableEq

/-- Go `rotateL`: `uint32(value<<bits) | uint32(value>>(32-bits))`. -/
def rotateL (value : Nat) (bits : Nat) : Nat :=
  ((value <<< bits) % U32) ||| (value >>> (32 - bits))

def K_0 : Nat := 0x5a827999
def K_1 : Nat := 0x6ed9eba1
def K_2 : Nat := 0x8f1bbcdc
def K_3 : Nat := 0xca62c1d6

/-- Go `Reset`: zero the length, clear the block, and write the five
SHA-1 initialization constants into `chainValue[0]` .. `chainValue[4]`
(modelled as the in-place `List.set` writes the Go code performs). -/
def resetFn (st : HasherState) : HasherState :=
  { block := List.replicate 16 0
    length := 0
    chainValue := ((((st.chainValue.set 0 0x67452301).set 1
        0xefcdab89).set 2 0x98badcfe).set 3 0x10325476).set 4 0xc3d2e1f0 }

/-- Go `New()`: allocate a zero-valued `hasher` and call `Reset`. -/
def newHasher : HasherState :=
  resetFn { block := List.replicate 16 0, length := 0,
            chainValue := List.replicate 5 0 }

/-! ## sha1/hash.go : copyBytes -/

/-- The loop body of Go `copyBytes`: consume the message bytes one at a
time, packing them big-endian into uint32 block words.  Carries
`(block, value, blocki, length)` exactly as the Go loop does. -/
def copyBytesLoop : List Nat → List Nat → Nat → Nat → Nat →
    (List Nat × Nat × Nat × Nat)
  | [], block, value, blocki, length => (block, value, blocki, length)
  | b :: rest, block, value, blocki, length =>
    let value := ((value <<< 8) + b) % U32
    let length := (length + 1) % U64
    if length &&& BLOCKITEM_MASK == 0 then
      copyBytesLoop rest (block.set blocki value) 0 (blocki + 1) length
    else
      copyBytesLoop rest block value blocki length

/-- Go `copyBytes`: copy `message` into the current block (big-endian
uint32 packing), then write the trailing partial word if the copy did
not end on a uint32 boundary, and store the updated length.  The loop
result `r` is `(block, value, blocki, length)`. -/
def copyBytes (st : HasherState) (message : List Nat) : HasherState :=
  let blocki := (st.length &&& 63) >>> 2
  let value := st.block.getD blocki 0
  let r := copyBytesLoop message st.block value blocki st.length
  let block := if r.2.2.2 &&& BLOCKITEM_MASK != 0 then r.1.set r.2.2.1 r.2.1
               else r.1
  { st with block := block, length := r.2.2.2 }

/-! ## sha1/hash.go : mixBits (message schedule and the 80 rounds) -/

/-- One expansion step of the Go message-schedule loops: index
16 ≤ i < 32 uses `ROTL1(W[i-3] ^ W[i-8] ^ W[i-14] ^ W[i-16])`, index
32 ≤ i < 80 uses the 64-bit-aligned alternative
`ROTL2(W[i-6] ^ W[i-16] ^ W[i-28] ^ W[i-32])`. -/
def schedWord (w : List Nat) (i : Nat) : Nat :=
  if i < 32 then
    rotateL ((w.getD (i-3) 0) ^^^ (w.getD (i-8) 0) ^^^ (w.getD (i-14) 0)
      ^^^ (w.getD (i-16) 0)) 1
  else
    rotateL ((w.getD (i-6) 0) ^^^ (w.getD (i-16) 0) ^^^ (w.getD (i-28) 0)
      ^^^ (w.getD (i-32) 0)) 2

/-- The scratch buffer after `n` expansion steps: entries 0..15 are the
block words, entries 16..16+n-1 are produced by `schedWord`. -/
def schedule (block : List Nat) : Nat → List Nat
  | 0 => block
  | n + 1 =>
    let w := schedule block n
    w ++ [schedWord w (16 + n)]

/-- Choice round function as written in mixBits: `d ^ (b & (c ^ d))`. -/
def choiceF (b c d : Nat) : Nat := d ^^^ (b &&& (c ^^^ d))

/-- Parity round function: `b ^ c ^ d`. -/
def parityF (b c d : Nat) : Nat := b ^^^ c ^^^ d

/-- Majority round function as written in mixBits:
`(b & c) | (d & (b | c))`. -/
def majorityF (b c d : Nat) : Nat := (b &&& c) ||| (d &&& (b ||| c))

/-- One SHA-1 round of the Go loops:
`tmp = ROTL5(a) + f(b,c,d) + e + K + W[i]` (uint32 wrap-around), then
`(a,b,c,d,e) = (tmp, a, ROTL30(b), c, d)`. -/
def roundStep (w : List Nat) (f : Nat → Nat → Nat → Nat) (k : Nat) :
    (Nat × Nat × Nat × Nat × Nat) → Nat → (Nat × Nat × Nat × Nat × Nat)
  | (a, b, c, d, e), i =>
    ((rotateL a 5 + f b c d + e + k + w.getD i 0) % U32,
      a, rotateL b 30, c, d)

/-- The four 20-round passes of Go `mixBits`, over rounds 0-19, 20-39,
40-59 and 60-79 with their round functions and constants. -/
def rounds (w : List Nat) (v : Nat × Nat × Nat × Nat × Nat) :
    Nat × Nat × Nat × Nat × Nat :=
  let v := (List.range' 0 20).foldl (roundStep w choiceF K_0) v
  let v := (List.range' 20 20).foldl (roundStep w parityF K_1) v
  let v := (List.range' 40 20).foldl (roundStep w majorityF K_2) v
  (List.range' 60 20).foldl (roundStep w parityF K_3) v

/-- Go `mixBits`: expand the block into the 80-word schedule, run the
80 rounds from the current chaining value, add the working variables
back into the chaining value with uint32 wrap-around, and clear the
block. -/
def mixBits (st : HasherState) : HasherState :=
  let w := schedule st.block 64
  let v := rounds w (st.chainValue.getD 0 0, st.chainValue.getD 1 0,
      st.chainValue.getD 2 0, st.chainValue.getD 3 0,
      st.chainValue.getD 4 0)
  { st with
    chainValue := [(st.chainValue.getD 0 0 + v.1) % U32,
      (st.chainValue.getD 1 0 + v.2.1) % U32,
      (st.chainValue.getD 2 0 + v.2.2.1) % U32,
      (st.chainValue.getD 3 0 + v.2.2.2.1) % U32,
      (st.chainValue.getD 4 0 + v.2.2.2.2) % U32]
    block := List.replicate 16 0 }

/-! ## sha1/hash.go : Write -/

/-- The `for index < msglen` loop of Go `Write`: take the next at most
64 message bytes, copy them into the block, and mix whenever a full
64-byte chunk was copied.  `fuel` bounds the iteration count (the Go
loop advances `index` by at least one byte per iteration, so any fuel
of at least `msglen` iterations is exact). -/
def writeLoop : Nat → HasherState → List Nat → Nat → HasherState
  | 0, st, _, _ => st
  | fuel + 1, st, message, index =>
    if index < message.length then
      let next := if index + BLOCK_BYTES > message.length then message.length
                  else index + BLOCK_BYTES
      let st := copyBytes st ((message.drop index).take (next - index))
      let st := if next - index == BLOCK_BYTES then mixBits st else st
      writeLoop fuel st message next
    else st

/-- Go `Write`: empty messages return immediately; a message fitting in
the current block is only copied; otherwise the current block is
filled and mixed, then—after the source's `index += offset`
adjustment—the remaining message is processed in 64-byte chunks. -/
def write (st : HasherState) (message : List Nat) : HasherState :=
  let msglen := message.length
  if msglen == 0 then st
  else
    let offset := st.length &&& (BLOCK_BYTES - 1)
    if msglen + offset < BLOCK_BYTES then copyBytes st message
    else
      let index := BLOCK_BYTES - offset
      let st := copyBytes st (message.take index)
      let st := mixBits st
      let index := index + offset
      writeLoop msglen st message index

/-! ## sha1/hash.go : Hash (padding and finalization) -/

/-- Go `write1bit`: set the `1` padding bit directly after the message
contents; `pos` is the byte position `length & 63` inside the block. -/
def write1bit (block : List Nat) (pos : Nat) : List Nat :=
  let blocki := pos >>> 2
  if pos &&& BLOCKITEM_MASK == 0 then block.set blocki 0x80000000
  else if pos &&& BLOCKITEM_MASK == 1 then
    block.set blocki ((((block.getD blocki 0) <<< 24) % U32) ||| 0x00800000)
  else if pos &&& BLOCKITEM_MASK == 2 then
    block.set blocki ((((block.getD blocki 0) <<< 16) % U32) ||| 0x00008000)
  else
    block.set blocki ((((block.getD blocki 0) <<< 8) % U32) ||| 0x00000080)

/-- Go `binary.BigEndian.PutUint32` of one chaining word into four
digest bytes. -/
def putUint32BE (v : Nat) : List Nat :=
  [(v >>> 24) % 256, (v >>> 16) % 256, (v >>> 8) % 256, v % 256]

/-- Go `newDigest`: serialize the five chaining words big-endian into
the 20 digest bytes. -/
def newDigestBytes (ints : List Nat) : List Nat :=
  putUint32BE (ints.getD 0 0) ++ putUint32BE (ints.getD 1 0) ++
  putUint32BE (ints.getD 2 0) ++ putUint32BE (ints.getD 3 0) ++
  putUint32BE (ints.getD 4 0)

/-- Go `Hash`: append the `1` bit; if fewer than 8 bytes remain in the
block, pad and mix it first; store the 64-bit message bit-length into
words 14 and 15 (split as `uint32(length >> 29)` and
`uint32(length & 0x1FFFFFFF) << 3`); mix the final block; produce the
digest bytes from the chaining value; reset the engine.  Returns the
digest together with the post-call hasher state. -/
def hashFn (st : HasherState) : List Nat × HasherState :=
  let length := st.length
  let st := { st with block := write1bit st.block (length &&& 63) }
  let st :=
    if 56 ≤ length &&& 63 then
      mixBits { st with length := (st.length + (64 - (length &&& 63))) % U64 }
    else st
  let st := { st with
    block := (st.block.set (BLOCK_INTS - 2) ((length >>> 29) % U32)).set
      (BLOCK_INTS - 1) ((((length &&& 0x1FFFFFFF) % U32) <<< 3) % U32) }
  let st := mixBits { st with
    length := (st.length + (64 - (st.length &&& 63))) % U64 }
  (newDigestBytes st.chainValue, resetFn st)

/-- Go `HashBytes`: hash a whole byte slice with a fresh hasher (the
write error is always nil, so the digest is total). -/
def hashBytes (input : List Nat) : List Nat :=
  (hashFn (write newHasher input)).1

end Gorng

namespace Gorng

/-! ## Known-answer test vectors -/

/-- ASCII bytes of "The quick brown fox jumps over the lazy dog". -/
def lazyDogBytes : List Nat :=
  [84, 104, 101, 32, 113, 117, 105, 99, 107, 32, 98, 114, 111, 119, 110,
   32, 102, 111, 120, 32, 106, 117, 109, 112, 115, 32, 111, 118, 101,
   114, 32, 116, 104, 101, 32, 108, 97, 122, 121, 32, 100, 111, 103]

/-- ASCII bytes of "The quick brown fox jumps over the lazy cog". -/
def lazyCogBytes : List Nat :=
  [84, 104, 101, 32, 113, 117, 105, 99, 107, 32, 98, 114, 111, 119, 110,
   32, 102, 111, 120, 32, 106, 117, 109, 112, 115, 32, 111, 118, 101,
   114, 32, 116, 104, 101, 32, 108, 97, 122, 121, 32, 99, 111, 103]

/-- NIST digest of the empty message. -/
def emptyDigest : List Nat :=
  [0xda, 0x39, 0xa3, 0xee, 0x5e, 0x6b, 0x4b, 0x0d, 0x32, 0x55,
   0xbf, 0xef, 0x95, 0x60, 0x18, 0x90, 0xaf, 0xd8, 0x07, 0x09]

/-- NIST digest of the lazy-dog message. -/
def lazyDogDigest : List Nat :=
  [0x2f, 0xd4, 0xe1, 0xc6, 0x7a, 0x2d, 0x28, 0xfc, 0xed, 0x84,
   0x9e, 0xe1, 0xbb, 0x76, 0xe7, 0x39, 0x1b, 0x93, 0xeb, 0x12]

/-- NIST digest of the lazy-cog message. -/
def lazyCogDigest : List Nat :=
  [0xde, 0x9f, 0x2c, 0x7f, 0xd2, 0x5e, 0x1b, 0x3a, 0xfa, 0xd3,
   0xe8, 0x5a, 0x0b, 0xd1, 0x7d, 0x9b, 0x10, 0x0d, 0xb4, 0xb3]

/-- The 65-byte message `0,1,...,64` used to exhibit the `Write`
chunking defect. -/
def msg65 : List Nat := List.range 65

/-! ## FIPS 180-4 message schedule as the specification states it -/

/-- One expansion step of the message schedule exactly as the FIPS
180-4 specification (and the spec document) state it:
`W[t] = ROTL1(W[t-3] ^ W[t-8] ^ W[t-14] ^ W[t-16])` for all
16 ≤ t < 80. -/
def specWord (w : List Nat) (i : Nat) : Nat :=
  rotateL ((w.getD (i-3) 0) ^^^ (w.getD (i-8) 0) ^^^ (w.getD (i-14) 0)
    ^^^ (w.getD (i-16) 0)) 1

/-- The schedule after `n` expansion steps using the specification's
single recurrence for every index. -/
def scheduleSpec (block : List Nat) : Nat → List Nat
  | 0 => block
  | n + 1 =>
    let w := scheduleSpec block n
    w ++ [specWord w (16 + n)]

/-! ## random.go : the ShaRing digest-cycling PRNG -/

/-- Go struct `ShaRing`: a hasher, a cursor `offset` into the current
digest, and the most recently produced digest bytes (`nil` modelled as
the empty list). -/
structure ShaRing where
  rng : HasherState
  offset : Nat
  digest : List Nat
deriving DecidableEq

/-- Go `New(source)`: substitute the default hasher for a nil source
and build `&ShaRing{source, 0, nil}`. -/
def shaRingNew (source : Option HasherState) : ShaRing :=
  match source with
  | none => { rng := newHasher, offset := 0, digest := [] }
  | some h => { rng := h, offset := 0, digest := [] }

/-- Go `binary.BigEndian.Uint64` of the first eight digest bytes. -/
def beUint64 (b : List Nat) : Nat :=
  ((b.getD 0 0) <<< 56) ||| ((b.getD 1 0) <<< 48) ||| ((b.getD 2 0) <<< 40)
    ||| ((b.getD 3 0) <<< 32) ||| ((b.getD 4 0) <<< 24)
    ||| ((b.getD 5 0) <<< 16) ||| ((b.getD 6 0) <<< 8) ||| (b.getD 7 0)

/-- Go `binary.BigEndian.Uint32` of the first four bytes of a slice. -/
def beUint32 (b : List Nat) : Nat :=
  ((b.getD 0 0) <<< 24) ||| ((b.getD 1 0) <<< 16) ||| ((b.getD 2 0) <<< 8)
    ||| (b.getD 3 0)

/-- The `case 0` branch of Go `ShaRing.Uint64` taken separately:
recompute `rng.digest = rng.rng.Hash()` and return the big-endian
uint64 made of digest bytes 0-7; the `offset` field is not touched. -/
def offsetZeroBranch (s : ShaRing) : Nat × ShaRing :=
  let h := hashFn s.rng
  (beUint64 h.1, { s with rng := h.2, digest := h.1 })

/-- Go `ShaRing.Uint64` as a state transformer: the `switch` on
`rng.offset` with cases 0, 4, 8, 12 and 16; a switch without a
matching case leaves the state unchanged and returns the zero value of
`next`. -/
def uint64Step (s : ShaRing) : Nat × ShaRing :=
  if s.offset = 0 then
    let h := hashFn s.rng
    (beUint64 h.1, { s with rng := h.2, digest := h.1 })
  else if s.offset = 4 ∨ s.offset = 8 then
    (beUint64 s.digest, { s with offset := s.offset + 8 })
  else if s.offset = 12 then
    (beUint64 s.digest, { s with offset := 0 })
  else if s.offset = 16 then
    let h := hashFn s.rng
    ((((beUint32 (s.digest.drop 16)) <<< 32) + beUint32 h.1) % U64,
      { s with rng := h.2, digest := h.1, offset := 4 })
  else (0, s)

/-- The ShaRing state after `n` successive `Uint64` calls. -/
def uint64Iter : Nat → ShaRing → ShaRing
  | 0, s => s
  | n + 1, s => uint64Iter n (uint64Step s).2

/-! ## random.go : NewSourceSeeded -/

/-- Go `binary.BigEndian.PutUint64(bytes[off:], v)`: bounds-checked
write of the eight big-endian bytes of `v` at positions
`off .. off+7`; a buffer with fewer than `off+8` bytes makes the Go
call panic (modelled as `none`). -/
def putUint64BE (bytes : List Nat) (off : Nat) (v : Nat) : Option (List Nat) :=
  if off + 8 ≤ bytes.length then
    some ((((((((bytes.set off ((v >>> 56) % 256)).set (off+1)
      ((v >>> 48) % 256)).set (off+2) ((v >>> 40) % 256)).set (off+3)
      ((v >>> 32) % 256)).set (off+4) ((v >>> 24) % 256)).set (off+5)
      ((v >>> 16) % 256)).set (off+6) ((v >>> 8) % 256)).set (off+7)
      (v % 256))
  else none

/-- The `for i := range more` loop of Go `NewSourceSeeded`: write each
extra seed word at byte offset `8*(i+1)`. -/
def seedLoop : List Nat → Nat → List Nat → Option (List Nat)
  | [], _, bytes => some bytes
  | v :: rest, i, bytes =>
    match putUint64BE bytes (8 * (i + 1)) v with
    | none => none
    | some bytes => seedLoop rest (i + 1) bytes

/-- Go `NewSourceSeeded(seed, more...)`: allocate a buffer of
`2 + 2*len(more)` bytes (as written in the source), store the seed
words big-endian, write the buffer into a fresh hasher and return
`&ShaRing{source, 0, nil}`.  A panicking `PutUint64` yields `none`. -/
def newSourceSeeded (seed : Nat) (more : List Nat) : Option ShaRing :=
  let size := 2 + 2 * more.length
  let bytes := List.replicate size 0
  match putUint64BE bytes 0 seed with
  | none => none
  | some bytes =>
    match seedLoop more 0 bytes with
    | none => none
    | some bytes =>
      some { rng := write newHasher bytes, offset := 0, digest := [] }

/-! ## safe package (gorng/safe) : extendedSource.Bytes -/

/-- Bounds-checked byte store `bytes[i] = v`; Go panics when `i` is
outside the slice length (modelled as `none`). -/
def setByte (bytes : List Nat) (i v : Nat) : Option (List Nat) :=
  if i < bytes.length then some (bytes.set i v) else none

/-- The inner `for i := 0; i < 8; i++` loop of Go
`extendedSource.Bytes`, with `fuel` counting the remaining iterations:
when fewer than 8 bits remain, mask them into the next byte and stop
with `bits = 0`; otherwise store the low byte of `next`, then
`next >>= 8` and `bits >>= 3` (as written in the source).  Returns the
updated `(bytes, bits)` or `none` on an out-of-range store. -/
def bytesInner : Nat → List Nat → Nat → Nat → Nat → Nat →
    Option (List Nat × Nat)
  | 0, bytes, _, bits, _, _ => some (bytes, bits)
  | fuel + 1, bytes, next, bits, offset, i =>
    if bits < 8 then
      let mask := (1 <<< bits) - 1
      match setByte bytes (offset + i) (next &&& mask) with
      | none => none
      | some bytes => some (bytes, 0)
    else
      match setByte bytes (offset + i) (next &&& 0xFF) with
      | none => none
      | some bytes => bytesInner fuel bytes (next >>> 8) (bits >>> 3)
          offset (i + 1)

/-- The outer `for bits > 0` loop of Go `extendedSource.Bytes`: draw
the next uint64 from the source stream and run the inner loop.  `fuel`
bounds the iterations (exhaustion with work remaining gives `none`);
the source is a stream `Nat → Nat` of successive `Uint64()` results
indexed by `si`. -/
def bytesOuter : Nat → (Nat → Nat) → Nat → List Nat → Nat →
    Option (List Nat)
  | 0, _, _, bytes, bits => if 0 < bits then none else some bytes
  | fuel + 1, stream, si, bytes, bits =>
    if 0 < bits then
      let next := stream si
      match bytesInner 8 bytes next bits 0 0 with
      | none => none
      | some r => bytesOuter fuel stream (si + 1) r.1 r.2
    else some bytes

/-- Go `extendedSource.Bytes(bits)`: zero bits yield the empty slice;
otherwise `countBytes = ceil(bits/8)` is computed but used only as the
capacity of `make([]byte, 0, countBytes)`, whose LENGTH is zero — the
loops then index into that zero-length slice. -/
def bytesFn (stream : Nat → Nat) (bits : Nat) : Option (List Nat) :=
  if bits = 0 then some []
  else
    let _countBytes := bits / 8 + (if 0 < bits &&& 7 then 1 else 0)
    let bytes : List Nat := []
    bytesOuter (bits + 1) stream 0 bytes bits

/-! ## safe package (gorng/safe) : New / randchan -/

/-- Go struct `randchan`: the extended source (modelled by its stream
of `Uint64()` results) and the per-channel bit width.  The channel
itself is represented by the trace of values sent on it. -/
structure Randchan where
  source : Nat → Nat
  bits : Nat

/-- The trace of values the goroutine started by Go `randchan.start`
sends on the channel.  The body of `start` in the source is empty: no
goroutine and no production loop exist, so the trace is empty. -/
def randchanStartSends (_rng : Randchan) : List (List Nat) := []

/-- Go `safe.New(source, bits)`: make the channel, build the
`randchan`, call `start`, return it. -/
def safeNew (source : Nat → Nat) (bits : Nat) : Randchan :=
  { source := source, bits := bits }

/-- The complete trace of values ever sent on the channel returned by
`safe.New` (everything `start` produces; `Close` is also an empty
function and sends nothing). -/
def safeNewSends (source : Nat → Nat) (bits : Nat) : List (List Nat) :=
  randchanStartSends (safeNew source bits)

/-! ## Helper lemmas -/

theorem mixBits_chainValue_length (st : HasherState) :
    (mixBits st).chainValue.length = 5 := rfl

theorem resetFn_eq (st : HasherState) (h : st.chainValue.length = 5) :
    resetFn st = ⟨List.replicate 16 0, 0,
      [0x67452301, 0xefcdab89, 0x98badcfe, 0x10325476, 0xc3d2e1f0]⟩ := by
  obtain ⟨blk, len, cv⟩ := st
  simp only at h
  match cv, h with
  | [a, b, c, d, e], _ => rfl

theorem hashFn_snd_eq (st : HasherState) :
    ∃ y, (hashFn st).2 = resetFn y ∧ y.chainValue.length = 5 :=
  ⟨_, rfl, mixBits_chainValue_length _⟩

theorem uint64Step_offset0 (s : ShaRing) (h : s.offset = 0) :
    uint64Step s = offsetZeroBranch s ∧ (uint64Step s).2.offset = 0 := by
  constructor
  · simp [uint64Step, offsetZeroBranch, h]
  · simp [uint64Step, h]

theorem putUint64BE_bound {bytes : List Nat} {off v : Nat}
    {out : List Nat} (h : putUint64BE bytes off v = some out) :
    off + 8 ≤ bytes.length := by
  by_cases hc : off + 8 ≤ bytes.length
  · exact hc
  · unfold putUint64BE at h
    rw [if_neg hc] at h
    cases h

theorem putUint64BE_length {bytes : List Nat} {off v : Nat}
    {out : List Nat} (h : putUint64BE bytes off v = some out) :
    out.length = bytes.length := by
  unfold putUint64BE at h
  split at h
  · cases h
    simp
  · cases h

theorem seedLoop_bound : ∀ (l : List Nat) (i : Nat) (bytes out : List Nat),
    seedLoop l i bytes = some out →
    l = [] ∨ 8 * (i + l.length) + 8 ≤ bytes.length := by
  intro l
  induction l with
  | nil => intro i bytes out _; exact Or.inl rfl
  | cons v rest ih =>
    intro i bytes out h
    right
    simp only [seedLoop] at h
    cases hp : putUint64BE bytes (8 * (i + 1)) v with
    | none => rw [hp] at h; cases h
    | some bytes2 =>
      rw [hp] at h
      dsimp only at h
      have hlen := putUint64BE_length hp
      have hbd := putUint64BE_bound hp
      rcases ih (i + 1) bytes2 out h with h1 | h2
      · subst h1
        simp only [List.length_cons, List.length_nil]
        omega
      · rw [hlen] at h2
        simp only [List.length_cons]
        omega

theorem bytesInner_empty (next bits : Nat) :
    bytesInner 8 [] next bits 0 0 = none := by
  show bytesInner (7 + 1) [] next bits 0 0 = none
  by_cases h : bits < 8
  · simp [bytesInner, setByte, h]
  · simp [bytesInner, setByte, h]

/-! ## Helper lemmas on 32-bit rotation and list lookups (for C8) -/

theorem u32_eq : U32 = 2 ^ 32 := rfl

theorem rotl_lt {v : Nat} (hv : v < 2 ^ 32) (b : Nat) :
    rotateL v b < 2 ^ 32 := by
  unfold rotateL
  apply Nat.or_lt_two_pow
  · rw [u32_eq]
    exact Nat.mod_lt _ (Nat.two_pow_pos 32)
  · calc v >>> (32 - b) ≤ v := by
          rw [Nat.shiftRight_eq_div_pow]; exact Nat.div_le_self _ _
      _ < 2 ^ 32 := hv

theorem testBit_rotl {v : Nat} (hv : v < 2 ^ 32) (b : Nat) (hb1 : 1 ≤ b)
    (hb2 : b ≤ 32) (i : Nat) :
    (rotateL v b).testBit i =
      if i < 32 then v.testBit ((i + 32 - b) % 32) else false := by
  have hvk : ∀ k, 32 ≤ k → v.testBit k = false := by
    intro k hk
    exact Nat.testBit_lt_two_pow
      (lt_of_lt_of_le hv (Nat.pow_le_pow_right (by norm_num) hk))
  unfold rotateL
  rw [u32_eq, Nat.testBit_or, Nat.testBit_mod_two_pow, Nat.testBit_shiftLeft,
    Nat.testBit_shiftRight]
  by_cases hi : i < 32
  · by_cases hib : b ≤ i
    · have h1 : (i + 32 - b) % 32 = i - b := by omega
      have h2 : v.testBit (32 - b + i) = false := hvk _ (by omega)
      simp [hi, hib, h1, h2, ge_iff_le]
    · have h1 : (i + 32 - b) % 32 = 32 - b + i := by omega
      simp [hi, hib, h1, ge_iff_le]
  · have h2 : v.testBit (32 - b + i) = false := hvk _ (by omega)
    simp [hi, h2]

theorem rotl_xor {x y : Nat} (hx : x < 2 ^ 32) (hy : y < 2 ^ 32) (b : Nat)
    (hb1 : 1 ≤ b) (hb2 : b ≤ 32) :
    rotateL (x ^^^ y) b = rotateL x b ^^^ rotateL y b := by
  apply Nat.eq_of_testBit_eq
  intro i
  rw [Nat.testBit_xor, testBit_rotl (Nat.xor_lt_two_pow hx hy) b hb1 hb2,
    testBit_rotl hx b hb1 hb2, testBit_rotl hy b hb1 hb2]
  by_cases hi : i < 32
  · simp [hi, Nat.testBit_xor]
  · simp [hi]

theorem rotl_rotl {v : Nat} (hv : v < 2 ^ 32) :
    rotateL (rotateL v 1) 1 = rotateL v 2 := by
  apply Nat.eq_of_testBit_eq
  intro i
  rw [testBit_rotl (rotl_lt hv 1) 1 (by norm_num) (by norm_num),
    testBit_rotl hv 2 (by norm_num) (by norm_num),
    testBit_rotl hv 1 (by norm_num) (by norm_num)]
  by_cases hi : i < 32
  · rw [if_pos hi, if_pos hi, if_pos (Nat.mod_lt _ (by norm_num))]
    congr 1
    omega
  · simp [hi]

theorem xor16_collapse (a6 a11 a16 a17 a19 a22 a24 a28 a30 a32 : Nat) :
    (a6 ^^^ a11 ^^^ a17 ^^^ a19) ^^^ (a11 ^^^ a16 ^^^ a22 ^^^ a24)
      ^^^ (a17 ^^^ a22 ^^^ a28 ^^^ a30) ^^^ (a19 ^^^ a24 ^^^ a30 ^^^ a32)
      = a6 ^^^ a16 ^^^ a28 ^^^ a32 := by
  apply Nat.eq_of_testBit_eq
  intro i
  simp only [Nat.testBit_xor]
  cases a6.testBit i <;> cases a11.testBit i <;> cases a16.testBit i <;>
    cases a17.testBit i <;> cases a19.testBit i <;> cases a22.testBit i <;>
    cases a24.testBit i <;> cases a28.testBit i <;> cases a30.testBit i <;>
    cases a32.testBit i <;> rfl

theorem getD_append_lt : ∀ (w : List Nat) (v : Nat) (t : Nat),
    t < w.length → (w ++ [v]).getD t 0 = w.getD t 0 := by
  intro w
  induction w with
  | nil => intro v t ht; simp at ht
  | cons a as ih =>
    intro v t ht
    cases t with
    | zero => rfl
    | succ k =>
      simp only [List.cons_append, List.getD_cons_succ]
      exact ih v k (by simpa using ht)

theorem getD_append_len (w : List Nat) (v : Nat) :
    (w ++ [v]).getD w.length 0 = v := by
  induction w with
  | nil => rfl
  | cons a as ih =>
    simp only [List.cons_append, List.length_cons, List.getD_cons_succ]
    exact ih

theorem getD_eq_zero_of_len_le : ∀ (l : List Nat) (t : Nat),
    l.length ≤ t → l.getD t 0 = 0 := by
  intro l
  induction l with
  | nil => intro t _; rfl
  | cons a as ih =>
    intro t ht
    cases t with
    | zero => simp at ht
    | succ k => exact ih k (by simpa using ht)

theorem getD_lt_of_mem {B : Nat} (hB : 0 < B) :
    ∀ (l : List Nat), (∀ x ∈ l, x < B) → ∀ t, l.getD t 0 < B := by
  intro l
  induction l with
  | nil =>
    intro _ t
    simp only [List.getD_nil]
    exact hB
  | cons a as ih =>
    intro h t
    cases t with
    | zero => exact h a (by simp)
    | succ k =>
      simp only [List.getD_cons_succ]
      exact ih (fun x hx => h x (by simp [hx])) k

theorem scheduleSpec_succ (block : List Nat) (n : Nat) :
    scheduleSpec block (n + 1)
      = scheduleSpec block n ++ [specWord (scheduleSpec block n) (16 + n)] :=
  rfl

theorem schedule_succ (block : List Nat) (n : Nat) :
    schedule block (n + 1)
      = schedule block n ++ [schedWord (schedule block n) (16 + n)] := rfl

/-- Invariant of the specification schedule: after `n` expansion steps
the list has `16+n` words, every word is a 32-bit value, and every
entry with index in `[16, 16+n)` satisfies the FIPS recurrence. -/
theorem scheduleSpec_invariant (block : List Nat) (h16 : block.length = 16)
    (hb : ∀ t, block.getD t 0 < 2 ^ 32) (n : Nat) :
    (scheduleSpec block n).length = 16 + n
    ∧ (∀ t, (scheduleSpec block n).getD t 0 < 2 ^ 32)
    ∧ (∀ t, 16 ≤ t → t < 16 + n →
        (scheduleSpec block n).getD t 0
          = specWord (scheduleSpec block n) t) := by
  induction n with
  | zero =>
    refine ⟨by simpa using h16, hb, ?_⟩
    intro t h1 h2
    omega
  | succ k ih =>
    obtain ⟨ihlen, ihbd, ihrec⟩ := ih
    have hnewlt : specWord (scheduleSpec block k) (16 + k) < 2 ^ 32 := by
      unfold specWord
      exact rotl_lt (Nat.xor_lt_two_pow (Nat.xor_lt_two_pow
        (Nat.xor_lt_two_pow (ihbd _) (ihbd _)) (ihbd _)) (ihbd _)) 1
    refine ⟨?_, ?_, ?_⟩
    · rw [scheduleSpec_succ]
      simp only [List.length_append, List.length_cons, List.length_nil,
        ihlen]
      omega
    · intro t
      rw [scheduleSpec_succ]
      rcases Nat.lt_trichotomy t (scheduleSpec block k).length
        with hlt | heq | hgt
      · rw [getD_append_lt _ _ _ hlt]
        exact ihbd t
      · rw [heq, getD_append_len]
        exact hnewlt
      · rw [getD_eq_zero_of_len_le _ _
          (by simp only [List.length_append, List.length_cons,
            List.length_nil]; omega)]
        exact Nat.two_pow_pos 32
    · intro t h1 h2
      rw [scheduleSpec_succ]
      rcases Nat.lt_or_ge t (16 + k) with hlt | hge
      · have htlen : t < (scheduleSpec block k).length := by omega
        rw [getD_append_lt _ _ _ htlen, ihrec t h1 hlt]
        unfold specWord
        congr 1
        rw [getD_append_lt _ _ _ (by omega), getD_append_lt _ _ _ (by omega),
          getD_append_lt _ _ _ (by omega), getD_append_lt _ _ _ (by omega)]
      · have ht : t = 16 + k := by omega
        subst ht
        have e1 : (scheduleSpec block k
              ++ [specWord (scheduleSpec block k) (16 + k)]).getD (16 + k) 0
            = specWord (scheduleSpec block k) (16 + k) := by
          rw [show 16 + k = (scheduleSpec block k).length from ihlen.symm,
            getD_append_len]
        rw [e1]
        unfold specWord
        congr 1
        rw [getD_append_lt _ _ _ (by omega), getD_append_lt _ _ _ (by omega),
          getD_append_lt _ _ _ (by omega), getD_append_lt _ _ _ (by omega)]

/-- The key refinement step: where the invariant holds, the code's
ROTL2 recurrence at an index at or above 32 produces the same word as
the specification's ROTL1 recurrence. -/
theorem schedWord_eq_specWord (w : List Nat) (i : Nat) (h32 : 32 ≤ i)
    (hilen : i ≤ w.length) (hbd : ∀ t, w.getD t 0 < 2 ^ 32)
    (hrec : ∀ t, 16 ≤ t → t < w.length → w.getD t 0 = specWord w t) :
    schedWord w i = specWord w i := by
  have e3 := hrec (i - 3) (by omega) (by omega)
  have e8 := hrec (i - 8) (by omega) (by omega)
  have e14 := hrec (i - 14) (by omega) (by omega)
  have e16 := hrec (i - 16) (by omega) (by omega)
  unfold specWord at e3 e8 e14 e16
  rw [show i - 3 - 3 = i - 6 by omega, show i - 3 - 8 = i - 11 by omega,
    show i - 3 - 14 = i - 17 by omega,
    show i - 3 - 16 = i - 19 by omega] at e3
  rw [show i - 8 - 3 = i - 11 by omega, show i - 8 - 8 = i - 16 by omega,
    show i - 8 - 14 = i - 22 by omega,
    show i - 8 - 16 = i - 24 by omega] at e8
  rw [show i - 14 - 3 = i - 17 by omega, show i - 14 - 8 = i - 22 by omega,
    show i - 14 - 14 = i - 28 by omega,
    show i - 14 - 16 = i - 30 by omega] at e14
  rw [show i - 16 - 3 = i - 19 by omega, show i - 16 - 8 = i - 24 by omega,
    show i - 16 - 14 = i - 30 by omega,
    show i - 16 - 16 = i - 32 by omega] at e16
  have hA : (w.getD (i-6) 0 ^^^ w.getD (i-11) 0 ^^^ w.getD (i-17) 0
      ^^^ w.getD (i-19) 0) < 2 ^ 32 :=
    Nat.xor_lt_two_pow (Nat.xor_lt_two_pow
      (Nat.xor_lt_two_pow (hbd _) (hbd _)) (hbd _)) (hbd _)
  have hB : (w.getD (i-11) 0 ^^^ w.getD (i-16) 0 ^^^ w.getD (i-22) 0
      ^^^ w.getD (i-24) 0) < 2 ^ 32 :=
    Nat.xor_lt_two_pow (Nat.xor_lt_two_pow
      (Nat.xor_lt_two_pow (hbd _) (hbd _)) (hbd _)) (hbd _)
  have hC : (w.getD (i-17) 0 ^^^ w.getD (i-22) 0 ^^^ w.getD (i-28) 0
      ^^^ w.getD (i-30) 0) < 2 ^ 32 :=
    Nat.xor_lt_two_pow (Nat.xor_lt_two_pow
      (Nat.xor_lt_two_pow (hbd _) (hbd _)) (hbd _)) (hbd _)
  have hD : (w.getD (i-19) 0 ^^^ w.getD (i-24) 0 ^^^ w.getD (i-30) 0
      ^^^ w.getD (i-32) 0) < 2 ^ 32 :=
    Nat.xor_lt_two_pow (Nat.xor_lt_two_pow
      (Nat.xor_lt_two_pow (hbd _) (hbd _)) (hbd _)) (hbd _)
  unfold schedWord specWord
  rw [if_neg (show ¬ i < 32 by omega)]
  conv_rhs => rw [e16, e14, e8, e3]
  rw [← rotl_xor hA hB 1 (by norm_num) (by norm_num),
    ← rotl_xor (Nat.xor_lt_two_pow hA hB) hC 1 (by norm_num) (by norm_num),
    ← rotl_xor (Nat.xor_lt_two_pow (Nat.xor_lt_two_pow hA hB) hC) hD 1
      (by norm_num) (by norm_num),
    rotl_rotl (Nat.xor_lt_two_pow
      (Nat.xor_lt_two_pow (Nat.xor_lt_two_pow hA hB) hC) hD),
    xor16_collapse]

/-- The code schedule and the specification schedule agree after every
number of expansion steps. -/
theorem schedule_eq_scheduleSpec (block : List Nat) (h16 : block.length = 16)
    (hb : ∀ t, block.getD t 0 < 2 ^ 32) :
    ∀ n, schedule block n = scheduleSpec block n := by
  intro n
  induction n with
  | zero => rfl
  | succ k ih =>
    rw [schedule_succ, scheduleSpec_succ, ih]
    obtain ⟨ihlen, ihbd, ihrec⟩ := scheduleSpec_invariant block h16 hb k
    by_cases h32 : 16 + k < 32
    · simp [schedWord, specWord, if_pos h32]
    · rw [schedWord_eq_specWord (scheduleSpec block k) (16 + k) (by omega)
        (by omega) ihbd (fun t ht1 ht2 => ihrec t ht1 (by omega))]

/-! ## Claim theorems -/

/-- Claim C1: `HashBytes` (Write of the whole input on a fresh hasher
followed by Hash) returns exactly the NIST SHA-1 digests on the three
known-answer inputs: the empty byte sequence, the lazy-dog string and
the lazy-cog string. -/
theorem sha1_known_answer_vectors :
    hashBytes [] = emptyDigest
    ∧ hashBytes lazyDogBytes = lazyDogDigest
    ∧ hashBytes lazyCogBytes = lazyCogDigest := by
  refine ⟨by decide, by decide, by decide⟩

/-- Claim C2 (failing input): splitting the 65-byte message
`0,1,...,64` into the chunks `[0:1]` and `[1:65]` makes `Write` drop
the trailing byte — after the two writes the recorded length is 64,
not 65, and the resulting digest equals the digest of the first 64
bytes instead of the digest of the full message.  The cause is the
`index += offset` line in `Write`, which skips `offset` message bytes
whenever a write beginning mid-block crosses a block boundary. -/
theorem write_chunking_drops_bytes :
    (write (write newHasher (msg65.take 1)) (msg65.drop 1)).length = 64
    ∧ (write newHasher msg65).length = 65
    ∧ (hashFn (write (write newHasher (msg65.take 1))
        (msg65.drop 1))).1 = hashBytes (msg65.take 64)
    ∧ (hashFn (write (write newHasher (msg65.take 1))
        (msg65.drop 1))).1 ≠ hashBytes msg65 := by
  refine ⟨by decide, by decide, by decide, by decide⟩

/-- Claim C3: every `Reset` call — and the implicit reset at the end of
`Hash` — writes the five SHA-1 initialization constants into the five
distinct slots `chainValue[0]` .. `chainValue[4]`, zeroes the block and
zeroes the length. -/
theorem reset_writes_all_five_constants (st : HasherState)
    (h : st.chainValue.length = 5) :
    (resetFn st).chainValue = [0x67452301, 0xefcdab89, 0x98badcfe,
        0x10325476, 0xc3d2e1f0]
    ∧ (resetFn st).block = List.replicate 16 0
    ∧ (resetFn st).length = 0
    ∧ (hashFn st).2.chainValue = [0x67452301, 0xefcdab89, 0x98badcfe,
        0x10325476, 0xc3d2e1f0]
    ∧ (hashFn st).2.block = List.replicate 16 0
    ∧ (hashFn st).2.length = 0 := by
  obtain ⟨y, hy, hylen⟩ := hashFn_snd_eq st
  rw [resetFn_eq st h, hy, resetFn_eq y hylen]
  exact ⟨rfl, rfl, rfl, rfl, rfl, rfl⟩

/-- Witness for C3 at the concrete state `newHasher`. -/
theorem reset_writes_all_five_constants_witness :
    newHasher.chainValue.length = 5
    ∧ ((resetFn newHasher).chainValue = [0x67452301, 0xefcdab89,
          0x98badcfe, 0x10325476, 0xc3d2e1f0]
      ∧ (resetFn newHasher).block = List.replicate 16 0
      ∧ (resetFn newHasher).length = 0
      ∧ (hashFn newHasher).2.chainValue = [0x67452301, 0xefcdab89,
          0x98badcfe, 0x10325476, 0xc3d2e1f0]
      ∧ (hashFn newHasher).2.block = List.replicate 16 0
      ∧ (hashFn newHasher).2.length = 0) :=
  ⟨by decide, reset_writes_all_five_constants newHasher (by decide)⟩

/-- Claim C4 (failing input): `NewSourceSeeded(1)` allocates a buffer
of `2 + 2*len(more) = 2` bytes and then calls
`binary.BigEndian.PutUint64` on it, which needs 8 bytes — the Go call
panics (modelled as `none`), so the constructor never returns and the
first `Uint64` draw described by the claim never happens. -/
theorem newSourceSeeded_seed1_panics : newSourceSeeded 1 [] = none := by
  decide

/-- Claim C5 (failing behaviour): starting from `New(nil)`, the first
two `Uint64` draws each leave `offset` at 0, each recompute a fresh
digest, and both return the identical word built from bytes 0-7 of the
empty-message digest — so bits 64..159 of every digest are discarded
(never emitted) and the same bit-range is emitted repeatedly, contrary
to exhaustive, non-overlapping positional consumption. -/
theorem uint64_consumes_only_first_eight_bytes :
    (uint64Step (shaRingNew none)).2.offset = 0
    ∧ (uint64Step ((uint64Step (shaRingNew none)).2)).2.offset = 0
    ∧ (uint64Step ((uint64Step (shaRingNew none)).2)).1
        = (uint64Step (shaRingNew none)).1
    ∧ (uint64Step (shaRingNew none)).2.digest = emptyDigest
    ∧ (uint64Step ((uint64Step (shaRingNew none)).2)).2.digest
        = emptyDigest := by
  refine ⟨by decide, by decide, by decide, by decide, by decide⟩

/-- Claim C9 (failing behaviour): `safe.New` calls `randchan.start`,
whose body is empty — no background production loop exists, so the
trace of values ever sent on the returned channel is empty, for every
source and every bit width. -/
theorem safeNew_starts_no_production_loop (source : Nat → Nat)
    (bits : Nat) : safeNewSends source bits = [] := rfl

/-- Claim C10: every `ShaRing` reachable from the constructor `New` by
any number of `Uint64` calls has `offset = 0`, and its next `Uint64`
call executes exactly the `case 0` branch (recompute the digest via
`Hash()` and return its first 8 bytes); the branches for offsets 4, 8,
12 and 16 are never executed. -/
theorem sharing_offset_invariant (source : Option HasherState) (n : Nat) :
    (uint64Iter n (shaRingNew source)).offset = 0
    ∧ uint64Step (uint64Iter n (shaRingNew source))
        = offsetZeroBranch (uint64Iter n (shaRingNew source)) := by
  have h0 : (shaRingNew source).offset = 0 := by cases source <;> rfl
  have main : ∀ (m : Nat) (s : ShaRing), s.offset = 0 →
      (uint64Iter m s).offset = 0 := by
    intro m
    induction m with
    | zero => intro s hs; exact hs
    | succ k ih => intro s hs; exact ih _ (uint64Step_offset0 s hs).2
  exact ⟨main n _ h0, (uint64Step_offset0 _ (main n _ h0)).1⟩

/-- Claim C6 (failing behaviour): for every seed and every list of
extra seed words, `NewSourceSeeded` panics — the buffer it allocates
has `2 + 2*len(more)` bytes while the big-endian writes need
`8*(len(more)+1)` bytes, so some `PutUint64` is always out of range
and no PRNG is ever constructed from a seed. -/
theorem newSourceSeeded_always_panics (seed : Nat) (more : List Nat) :
    newSourceSeeded seed more = none := by
  simp only [newSourceSeeded]
  cases hp : putUint64BE (List.replicate (2 + 2 * more.length) 0) 0 seed with
  | none => rfl
  | some bytes2 =>
    dsimp only
    have hbd := putUint64BE_bound hp
    have hlen := putUint64BE_length hp
    cases hq : seedLoop more 0 bytes2 with
    | none => rfl
    | some out =>
      exfalso
      rcases seedLoop_bound more 0 bytes2 out hq with h1 | h2
      · subst h1
        rw [List.length_replicate] at hbd
        simp only [List.length_nil] at hbd
        omega
      · rw [hlen, List.length_replicate] at h2
        omega

/-- Claim C7 (failing behaviour): for every word source and every
requested bit count between 1 and 255, `extendedSource.Bytes` panics —
it allocates its output buffer with `make([]byte, 0, countBytes)`,
whose length is zero, and then assigns `bytes[offset+i]`, an
out-of-range index on the very first store. -/
theorem bytes_extraction_always_panics (stream : Nat → Nat) (bits : Nat)
    (h : 1 ≤ bits) : bytesFn stream bits = none := by
  have hb0 : ¬ bits = 0 := by omega
  simp only [bytesFn, if_neg hb0]
  simp only [bytesOuter, bytesInner_empty]
  rw [if_pos (show 0 < bits by omega)]

/-- Witness for C7 at the concrete bit count 8 and an all-zero
source. -/
theorem bytes_extraction_always_panics_witness :
    1 ≤ 8 ∧ bytesFn (fun _ => 0) 8 = none :=
  ⟨by decide, bytes_extraction_always_panics (fun _ => 0) 8 (by decide)⟩

/-- Claim C8: for every 64-byte block content (16 words of 32 bits),
the 80-word message schedule computed by `mixBits` — ROTL1 recurrence
for 16 ≤ t < 32, ROTL2 alternative recurrence for 32 ≤ t < 80 — is
equal, word for word, to the schedule obtained from the
specification's single ROTL1 recurrence for all t in [16, 80). -/
theorem schedule_matches_spec_recurrence (block : List Nat)
    (h16 : block.length = 16) (hb : ∀ x ∈ block, x < 2 ^ 32) :
    schedule block 64 = scheduleSpec block 64 :=
  schedule_eq_scheduleSpec block h16
    (getD_lt_of_mem (Nat.two_pow_pos 32) block hb) 64

/-- Witness for C8 at the all-zero block. -/
theorem schedule_matches_spec_recurrence_witness :
    (List.replicate 16 0).length = 16
    ∧ (∀ x ∈ List.replicate 16 0, x < 2 ^ 32)
    ∧ schedule (List.replicate 16 0) 64
        = scheduleSpec (List.replicate 16 0) 64 :=
  ⟨by decide, by decide,
    schedule_matches_spec_recurrence _ (by decide) (by decide)⟩

end Gorng
